import Mathlib

/-!
# Verification of the zarr chunked-array engine and store contract

This file gives a shallow embedding of the two specified source files of the
repository and proves the frozen claims about them:

* `src/src/zarr/abc/store.py` — `AccessMode.from_literal`, the `Store._open`
  / `Store.close` lifecycle.  The abstract methods `empty` / `clear` are
  backend-defined ("Remove all keys and values from the store"); we instantiate
  the backend contents as a key/value association list, which is exactly the
  contract they must satisfy.
* `src/zarr/array.py` — the chunk engine: `Array.__getitem__`,
  `Array.__setitem__`, `Array._chunk_getitem`, `Array._chunk_setitem`,
  `Array.append`.

`array.py` imports helpers from `zarr.util` (`normalize_array_selection`,
`get_chunk_range`, `is_total_slice`) and the compression wrapper `zarr.blosc`,
which are repository code not included in the sources; those are modelled from
the specification text, and each such definition is marked
`Modelled from the spec:`.

Numpy arrays are embedded as total functions from multi-indices
(`List Nat`) to element values (`Int`); a write to a view becomes a functional
update on the region of the underlying function.  The nondeterministic contents
of `np.empty` buffers are threaded as explicit parameters (`out0`, `uninit`)
and universally quantified in the theorems.  The store maps chunk coordinates
to compressed blobs; in the source the key is the `'.'`-join of the decimal
coordinates, which is in bijection with the coordinate tuple, so we index
directly by the coordinate list.
-/

set_option autoImplicit false

namespace Zarr

/-- Python exception kinds raised by the embedded code. -/
inductive PyErr where
  | valueError
  | fileExistsError
  deriving DecidableEq, Repr

/-! ## Access modes (`zarr.abc.store.AccessMode`) -/

/-- Access mode flags, from `class AccessMode(NamedTuple)`. -/
structure AccessMode where
  str : String
  readonly : Bool
  overwrite : Bool
  create : Bool
  update : Bool
  deriving DecidableEq, Repr

/-- `AccessMode.from_literal`, translated from `abc/store.py` lines 30–58. -/
def AccessMode.from_literal (mode : String) : Except PyErr AccessMode :=
  if mode = "r" ∨ mode = "r+" ∨ mode = "a" ∨ mode = "w" ∨ mode = "w-" then
    .ok { str := mode
          readonly := mode == "r"
          overwrite := mode == "w"
          create := mode == "a" || mode == "w" || mode == "w-"
          update := mode == "r+" || mode == "a" }
  else
    .error .valueError

/-! ## Store lifecycle (`zarr.abc.store.Store`) -/

/-- The observable state of a `Store`: its access mode, the `_is_open` flag,
and the backend key/value contents (an association list of keys to byte
blobs), which is what the abstract `empty` / `clear` methods act on. -/
structure KVStore where
  mode : AccessMode
  is_open : Bool
  contents : List (String × List Nat)
  deriving DecidableEq, Repr

namespace KVStore

/-- `Store.empty`: "True if the store is empty, False otherwise". -/
def empty (s : KVStore) : Bool :=
  s.contents.isEmpty

/-- `Store.clear`: "Remove all keys and values from the store". -/
def clear (s : KVStore) : KVStore :=
  { s with contents := [] }

/-- `Store._open`, translated from `abc/store.py` lines 107–128:
raise `ValueError` if already open; clear if mode is `"w"`; raise
`FileExistsError` if mode is `"w-"` and the store is non-empty; finally set
`_is_open = True`. -/
def _open (s : KVStore) : Except PyErr KVStore :=
  if s.is_open then
    .error .valueError
  else if s.mode.str = "w" then
    .ok { s.clear with is_open := true }
  else if s.mode.str = "w-" ∧ ¬ s.empty then
    .error .fileExistsError
  else
    .ok { s with is_open := true }

/-- `Store.close`, lines 393–395: just reset the `_is_open` flag. -/
def close (s : KVStore) : KVStore :=
  { s with is_open := false }

/-- The sequence `_open(); close(); _open()` on a store, succeeding only when
both opens succeed. -/
def open_close_open (s : KVStore) : Except PyErr KVStore := do
  let s1 ← s._open
  s1.close._open

end KVStore

/-! ## The chunk engine (`zarr/array.py`) -/

/-- A multi-dimensional index: one non-negative coordinate per dimension. -/
abbrev Ix := List Nat

/-- A normalized selection: per-dimension half-open `(start, stop)` bounds. -/
abbrev Sel := List (Nat × Nat)

/-- The contents of an n-dimensional buffer, as a total function from
multi-indices to element values (positions outside the buffer's shape are
irrelevant). -/
abbrev Buf := Ix → Int

/-- A compressed chunk blob.  `Modelled from the spec:` only the
compress/decompress contract of the external compression pipeline
(`zarr.blosc`, not among the sources) matters; we model the blob as an
invertible encoding of the chunk contents. -/
structure CData where
  payload : Buf

namespace blosc

/-- `Modelled from the spec:` `blosc.compress(chunk, cname, clevel, shuffle)`
— an invertible encoding of the chunk contents; the codec parameters select
the encoding and do not affect the decompressed value. -/
def compress (chunk : Buf) (_cname : String) (_clevel _shuffle : Nat) : CData :=
  ⟨chunk⟩

/-- `Modelled from the spec:` `blosc.decompress(cdata, dest)` — recovers
exactly the buffer that was compressed. -/
def decompress (cdata : CData) : Buf :=
  cdata.payload

end blosc

/-- The chunk section of the array store: chunk coordinates to compressed
blobs, `none` meaning the chunk was never written.  In the source the store
key is `'.'.join(map(str, cidx))`, which is in bijection with the coordinate
tuple, so we index by the coordinate list directly. -/
abbrev ChunkStore := Ix → Option CData

/-- The array metadata held by `zarr.Array` (`store.meta`): shape, chunk
shape, fill value and codec parameters.  (`dtype` does not matter in the
value-level model.) -/
structure ZMeta where
  shape : List Nat
  chunks : List Nat
  fill_value : Option Int
  cname : String
  clevel : Nat
  shuffle : Nat

/-- `Modelled from the spec:` `zarr.util.is_total_slice(item, shape)` — does
`item` span the entire extent `shape`?  Per the spec (§4.5/§4.6), the
chunk-local selection spans the entire chunk exactly when every dimension
covers `[0, chunk_shape[d])`. -/
def is_total_slice (item : Sel) (shape : List Nat) : Bool :=
  item.length == shape.length &&
    (item.zip shape).all fun x => x.1.1 == 0 && x.1.2 == x.2

/-- Is `p` inside the region described by `sel` (per-dimension
`start ≤ p[d] < stop`, with matching dimensionality)? -/
def in_sel (sel : Sel) (p : Ix) : Bool :=
  p.length == sel.length &&
    (p.zip sel).all fun x => decide (x.2.1 ≤ x.1) && decide (x.1 < x.2.2)

/-- Is `p` a valid index into the output buffer of shape
`stop - start` per dimension? -/
def in_shape (sel : Sel) (p : Ix) : Bool :=
  p.length == sel.length &&
    (p.zip sel).all fun x => decide (x.1 < x.2.2 - x.2.1)

/-- `Modelled from the spec:` the chunk-range calculator
(`zarr.util.get_chunk_range`): per dimension, the chunk indices intersecting
`[start, stop)` are `floor(start/c) .. ceil(stop/c) - 1` (§4.4). -/
def get_chunk_range (sel : Sel) (chunks : List Nat) : List (List Nat) :=
  List.zipWith (fun (se : Nat × Nat) c =>
    List.range' (se.1 / c) ((se.2 + c - 1) / c - se.1 / c)) sel chunks

/-- The Cartesian product of per-dimension index lists, last dimension
fastest — `itertools.product(*chunk_range)`. -/
def cartesianProduct : List (List Nat) → List (List Nat)
  | [] => [[]]
  | r :: rs => r.flatMap fun i => (cartesianProduct rs).map (i :: ·)

/-- The chunk offset `offset = [i * c for i, c in zip(cidx, chunks)]`. -/
def chunk_offset (cidx chunks : List Nat) : List Nat :=
  List.zipWith (fun i c => i * c) cidx chunks

/-- The region within the output array covered by the chunk at `offset`
(`out_selection` in `__getitem__`; the identical expression computes
`value_selection` in `__setitem__`):
`slice(max(0, o - start), min(o + c - start, stop - start))`. -/
def out_selection (sel : Sel) (offset chunks : List Nat) : Sel :=
  List.zipWith (fun (se : Nat × Nat) (oc : Nat × Nat) =>
      (max 0 (oc.1 - se.1), min (oc.1 + oc.2 - se.1) (se.2 - se.1)))
    sel (offset.zip chunks)

/-- The region within the chunk covered by the selection (`chunk_selection`):
`slice(max(0, start - o), min(c, stop - o))`. -/
def chunk_selection (sel : Sel) (offset chunks : List Nat) : Sel :=
  List.zipWith (fun (se : Nat × Nat) (oc : Nat × Nat) =>
      (max 0 (se.1 - oc.1), min oc.2 (se.2 - oc.1)))
    sel (offset.zip chunks)

/-- The per-dimension start offsets of a selection. -/
def starts (sel : Sel) : List Nat :=
  sel.map Prod.fst

/-- `out[out_selection]` as a view: region-local index `q` addresses
`out[starts + q]`. -/
def view (out : Buf) (sel : Sel) : Buf :=
  fun q => out (List.zipWith (· + ·) (starts sel) q)

/-- Writing a region-contents function `dest` back over the region `sel` of
`out` (the effect of mutating the numpy view `out[out_selection]`). -/
def write_region (out : Buf) (sel : Sel) (dest : Buf) : Buf :=
  fun p =>
    if in_sel sel p then dest (List.zipWith (· - ·) p (starts sel))
    else out p

/-- The fast hit branch of `_chunk_getitem`: decompress the whole chunk
directly into the destination. -/
def chunk_read_fast (cdata : CData) : Buf :=
  blosc.decompress cdata

/-- The slow hit branch of `_chunk_getitem`: decompress into a temporary
chunk buffer, then copy `chunk[item]` into the destination
(`tmp = chunk[item]; dest[:] = tmp`). -/
def chunk_read_slow (cdata : CData) (item : Sel) : Buf :=
  fun q => blosc.decompress cdata (List.zipWith (fun (se : Nat × Nat) t => se.1 + t) item q)

/-- `Array._chunk_getitem` (lines 232–278): returns the new contents of the
destination region `dest` (a view of the output buffer).  On a missing key,
fill with `fill_value` if present, else leave `dest` untouched.  On a hit the
source takes the fast branch when `is_total_slice(item, chunks)` and the
destination is C-contiguous, else the slow branch; contiguity is a memory
layout detail with no value-level meaning, and both branches agree whenever
`is_total_slice` holds (proved below), so the model branches on
`is_total_slice` alone. -/
def chunk_getitem (a : ZMeta) (st : ChunkStore) (cidx : Ix) (item : Sel)
    (dest : Buf) : Buf :=
  match st cidx with
  | none =>
      match a.fill_value with
      | some v => fun _ => v
      | none => dest
  | some cdata =>
      if is_total_slice item a.chunks then chunk_read_fast cdata
      else chunk_read_slow cdata item

/-- The body of the `__getitem__` loop for one chunk coordinate:
compute `offset`, `out_selection`, `chunk_selection`, take the view
`dest = out[out_selection]`, run `_chunk_getitem`, and write the resulting
region contents back into the output buffer. -/
def apply_read (a : ZMeta) (st : ChunkStore) (sel : Sel) (out : Buf)
    (cidx : Ix) : Buf :=
  let offset := chunk_offset cidx a.chunks
  let osel := out_selection sel offset a.chunks
  let csel := chunk_selection sel offset a.chunks
  write_region out osel (chunk_getitem a st cidx csel (view out osel))

/-- `Array.__getitem__` (lines 150–188) on an already-normalized selection
(the normalizer `zarr.util.normalize_array_selection` is
`Modelled from the spec:` §4.4 as producing per-dimension clipped
`(start, stop)` bounds, which is the `sel` argument here).  `out0` is the
arbitrary initial contents of the `np.empty` output buffer. -/
def getitem (a : ZMeta) (st : ChunkStore) (sel : Sel) (out0 : Buf) : Buf :=
  (cartesianProduct (get_chunk_range sel a.chunks)).foldl (apply_read a st sel) out0

/-- The value argument of `_chunk_setitem`: a scalar, or an ndarray of the
shape of the chunk region being written (as a function of region-local
index). -/
inductive CVal where
  | scalar (v : Int)
  | arr (f : Buf)

/-- `Array._chunk_setitem` (lines 280–343).  If the key spans the whole chunk,
build a fresh chunk (broadcast the scalar, or reshape the value); otherwise
fetch and decompress the existing chunk (a miss giving a `fill_value`-filled
buffer, or the arbitrary `np.empty` contents `uninit` when `fill_value` is
absent) and mutate the `key` sub-region in place.  Finally recompress the
entire chunk and store it under the chunk's coordinate key. -/
def chunk_setitem (a : ZMeta) (st : ChunkStore) (uninit : Buf) (cidx : Ix)
    (key : Sel) (value : CVal) : ChunkStore :=
  let chunk : Buf :=
    if is_total_slice key a.chunks then
      match value with
      | .scalar v => fun _ => v
      | .arr f => f
    else
      let base : Buf :=
        match st cidx with
        | none =>
            match a.fill_value with
            | some v => fun _ => v
            | none => uninit
        | some cdata => blosc.decompress cdata
      fun p =>
        if in_sel key p then
          match value with
          | .scalar v => v
          | .arr f => f (List.zipWith (· - ·) p (starts key))
        else base p
  fun k =>
    if k = cidx then some (blosc.compress chunk a.cname a.clevel a.shuffle)
    else st k

/-- The value argument of `__setitem__`: a scalar, or an array of the shape
of the selection (as a function of selection-local index). -/
inductive SetVal where
  | scalar (v : Int)
  | array (f : Buf)

/-- `Array.__setitem__` (lines 193–230) on an already-normalized selection.
For each overlapping chunk: compute `chunk_selection`; for a scalar pass it
through, for an array pass `value[value_selection]` (a function of the
chunk-region-local index). -/
def setitem (a : ZMeta) (st : ChunkStore) (sel : Sel) (value : SetVal)
    (uninit : Buf) : ChunkStore :=
  (cartesianProduct (get_chunk_range sel a.chunks)).foldl
    (fun st cidx =>
      let offset := chunk_offset cidx a.chunks
      let csel := chunk_selection sel offset a.chunks
      match value with
      | .scalar v => chunk_setitem a st uninit cidx csel (.scalar v)
      | .array f =>
          let vsel := out_selection sel offset a.chunks
          chunk_setitem a st uninit cidx csel
            (.arr fun q => f (List.zipWith (· + ·) (starts vsel) q)))
    st

/-- `Array.resize` (lines 367–371): replace the shape metadata (the store
pass-through does not purge out-of-range chunk keys). -/
def resize (a : ZMeta) (new_shape : List Nat) : ZMeta :=
  { a with shape := new_shape }

/-- The `new_shape` local of `Array.append`: the old shape with `data`'s
extent added along `axis`. -/
def new_shape_of (old_shape dshape : List Nat) (axis : Nat) : List Nat :=
  (List.range old_shape.length).map fun i =>
    if i = axis then old_shape.getD i 0 + dshape.getD i 0
    else old_shape.getD i 0

/-- The `append_selection` local of `Array.append`: `slice(old, new)` along
the append axis, `slice(None)` (i.e. `(0, shape[i])` after normalization
against the resized shape) elsewhere. -/
def append_sel (old_shape new_shape : List Nat) (axis : Nat) : Sel :=
  (List.range old_shape.length).map fun i =>
    if i = axis then (old_shape.getD i 0, new_shape.getD i 0)
    else (0, new_shape.getD i 0)

/-- `Array.append` (lines 373–420): check that every non-append axis of
`data` matches the array's extent (`ValueError` otherwise, before any
mutation), compute `new_shape` by adding `data`'s extent along `axis`,
resize, and write `data` into the newly added region through the ordinary
write path.  `dshape` is `data.shape` and `f` the contents of `data`. -/
def append (a : ZMeta) (st : ChunkStore) (dshape : List Nat) (f : Buf)
    (axis : Nat) (uninit : Buf) : Except PyErr (ZMeta × ChunkStore) :=
  if a.shape.eraseIdx axis ≠ dshape.eraseIdx axis then
    .error .valueError
  else
    let new_shape := new_shape_of a.shape dshape axis
    let a2 := resize a new_shape
    .ok (a2, setitem a2 st (append_sel a.shape new_shape axis) (.array f) uninit)

/-- The global index addressed by out-buffer index `p` under selection
`sel`: `g[d] = start[d] + p[d]`. -/
def gidx (sel : Sel) (p : Ix) : Ix :=
  List.zipWith (· + ·) (starts sel) p

/-- The coordinate of the chunk containing global index `g`. -/
def chunk_of (g chunks : Ix) : Ix :=
  List.zipWith (· / ·) g chunks

/-- The chunk-local position of global index `g`. -/
def local_of (g chunks : Ix) : Ix :=
  List.zipWith (· % ·) g chunks

/-- The value logically stored at global index `g`: look up the chunk
`g / chunks` elementwise; a missing chunk answers `fill_value` (or the
supplied default when `fill_value` is absent); a present chunk answers the
decompressed contents at the chunk-local index `g % chunks`. -/
def stored_at (a : ZMeta) (st : ChunkStore) (g : Ix) (dflt : Int) : Int :=
  match st (chunk_of g a.chunks) with
  | none =>
      match a.fill_value with
      | some v => v
      | none => dflt
  | some cdata => blosc.decompress cdata (local_of g a.chunks)

/-! ## Generic fold-at-a-point lemmas -/

theorem foldl_point_untouched {τ : Type} (step : (Ix → τ) → Ix → (Ix → τ))
    (p : Ix) :
    ∀ (L : List Ix), (∀ c ∈ L, ∀ f, step f c p = f p) →
      ∀ f0 : Ix → τ, (L.foldl step f0) p = f0 p := by
  intro L
  induction L with
  | nil => intro _ f0; rfl
  | cons c0 rest ih =>
      intro h f0
      have hrest : ∀ c ∈ rest, ∀ f, step f c p = f p :=
        fun c hc => h c (List.mem_cons_of_mem c0 hc)
      calc ((c0 :: rest).foldl step f0) p = (rest.foldl step (step f0 c0)) p := rfl
        _ = (step f0 c0) p := ih hrest (step f0 c0)
        _ = f0 p := h c0 (List.mem_cons_self c0 rest) f0

theorem foldl_point_hit {τ : Type} (step : (Ix → τ) → Ix → (Ix → τ))
    (p : Ix) (cstar : Ix) (F : τ → τ)
    (hF : ∀ x, F (F x) = F x) :
    ∀ (L : List Ix),
      (∀ c ∈ L, c ≠ cstar → ∀ f, step f c p = f p) →
      (∀ f, step f cstar p = F (f p)) →
      cstar ∈ L →
      ∀ f0 : Ix → τ, (L.foldl step f0) p = F (f0 p) := by
  intro L
  induction L with
  | nil => intro _ _ hmem; exact absurd hmem (List.not_mem_nil cstar)
  | cons c0 rest ih =>
      intro hother hstar hmem f0
      have hrest_other : ∀ c ∈ rest, c ≠ cstar → ∀ f, step f c p = f p :=
        fun c hc => hother c (List.mem_cons_of_mem c0 hc)
      by_cases hc0 : c0 = cstar
      · subst hc0
        by_cases hmem2 : c0 ∈ rest
        · calc ((c0 :: rest).foldl step f0) p
              = (rest.foldl step (step f0 c0)) p := rfl
            _ = F ((step f0 c0) p) := ih hrest_other hstar hmem2 (step f0 c0)
            _ = F (F (f0 p)) := by rw [hstar]
            _ = F (f0 p) := hF (f0 p)
        · have hrest_all : ∀ c ∈ rest, ∀ f, step f c p = f p := by
            intro c hc f
            exact hrest_other c hc (fun heq => hmem2 (heq ▸ hc)) f
          calc ((c0 :: rest).foldl step f0) p
              = (rest.foldl step (step f0 c0)) p := rfl
            _ = (step f0 c0) p := foldl_point_untouched step p rest hrest_all _
            _ = F (f0 p) := hstar f0
      · have hmem2 : cstar ∈ rest := by
          rcases List.mem_cons.mp hmem with h | h
          · exact absurd h.symm hc0
          · exact h
        calc ((c0 :: rest).foldl step f0) p
            = (rest.foldl step (step f0 c0)) p := rfl
          _ = F ((step f0 c0) p) := ih hrest_other hstar hmem2 (step f0 c0)
          _ = F (f0 p) := by rw [hother c0 (List.mem_cons_self c0 rest) hc0 f0]

/-! ## Per-dimension arithmetic -/

theorem dim_div_facts (c g : Nat) (hc : 0 < c) :
    (g / c) * c ≤ g ∧ g < (g / c) * c + c ∧ g % c = g - (g / c) * c := by
  have h1 : g / c * c ≤ g := Nat.div_mul_le_self g c
  have h2 := Nat.div_add_mod g c
  have h3 : c * (g / c) = g / c * c := Nat.mul_comm c (g / c)
  have h4 : g % c < c := Nat.mod_lt g hc
  omega

theorem dim_q_eq (c g q : Nat) (hc : 0 < c) :
    (q * c ≤ g ∧ g < q * c + c) ↔ q = g / c := by
  constructor
  · rintro ⟨h1, h2⟩
    have h3 : g < (q + 1) * c := by
      have : (q + 1) * c = q * c + c := Nat.succ_mul q c
      omega
    exact (Nat.div_eq_of_lt_le h1 h3).symm
  · rintro rfl
    obtain ⟨h1, h2, _⟩ := dim_div_facts c g hc
    exact ⟨h1, h2⟩

theorem dim_touch_iff (s e c x o : Nat) (hx : x < e - s) :
    (max 0 (o - s) ≤ x ∧ x < min (o + c - s) (e - s)) ↔
      (o ≤ s + x ∧ s + x < o + c) := by
  omega

/-! ## Lengths and components of the derived selections -/

theorem length_starts (sel : Sel) : (starts sel).length = sel.length := by
  simp [starts]

theorem length_gidx (sel : Sel) (p : Ix) :
    (gidx sel p).length = min sel.length p.length := by
  simp [gidx, starts]

theorem length_chunk_of (g chunks : Ix) :
    (chunk_of g chunks).length = min g.length chunks.length := by
  simp [chunk_of]

theorem length_local_of (g chunks : Ix) :
    (local_of g chunks).length = min g.length chunks.length := by
  simp [local_of]

theorem length_chunk_offset (cidx chunks : List Nat) :
    (chunk_offset cidx chunks).length = min cidx.length chunks.length := by
  simp [chunk_offset]

theorem length_out_selection (sel : Sel) (offset chunks : List Nat) :
    (out_selection sel offset chunks).length =
      min sel.length (min offset.length chunks.length) := by
  simp [out_selection]

theorem length_chunk_selection (sel : Sel) (offset chunks : List Nat) :
    (chunk_selection sel offset chunks).length =
      min sel.length (min offset.length chunks.length) := by
  simp [chunk_selection]

theorem length_get_chunk_range (sel : Sel) (chunks : List Nat) :
    (get_chunk_range sel chunks).length = min sel.length chunks.length := by
  simp [get_chunk_range]

theorem getElem_starts (sel : Sel) (i : Nat) (h : i < (starts sel).length)
    (h1 : i < sel.length) : (starts sel)[i] = sel[i].1 := by
  simp [starts]

theorem getElem_gidx (sel : Sel) (p : Ix) (i : Nat) (h : i < (gidx sel p).length)
    (h1 : i < sel.length) (h2 : i < p.length) :
    (gidx sel p)[i] = sel[i].1 + p[i] := by
  simp [gidx, starts, List.getElem_zipWith]

theorem getElem_chunk_of (g chunks : Ix) (i : Nat) (h : i < (chunk_of g chunks).length)
    (h1 : i < g.length) (h2 : i < chunks.length) :
    (chunk_of g chunks)[i] = g[i] / chunks[i] := by
  simp [chunk_of, List.getElem_zipWith]

theorem getElem_local_of (g chunks : Ix) (i : Nat) (h : i < (local_of g chunks).length)
    (h1 : i < g.length) (h2 : i < chunks.length) :
    (local_of g chunks)[i] = g[i] % chunks[i] := by
  simp [local_of, List.getElem_zipWith]

theorem getElem_chunk_offset (cidx chunks : List Nat) (i : Nat)
    (h : i < (chunk_offset cidx chunks).length)
    (h1 : i < cidx.length) (h2 : i < chunks.length) :
    (chunk_offset cidx chunks)[i] = cidx[i] * chunks[i] := by
  simp [chunk_offset, List.getElem_zipWith]

theorem getElem_out_selection (sel : Sel) (offset chunks : List Nat) (i : Nat)
    (h : i < (out_selection sel offset chunks).length)
    (h1 : i < sel.length) (h2 : i < offset.length) (h3 : i < chunks.length) :
    (out_selection sel offset chunks)[i] =
      (max 0 (offset[i] - sel[i].1),
        min (offset[i] + chunks[i] - sel[i].1) (sel[i].2 - sel[i].1)) := by
  simp [out_selection, List.getElem_zipWith, List.getElem_zip]

theorem getElem_chunk_selection (sel : Sel) (offset chunks : List Nat) (i : Nat)
    (h : i < (chunk_selection sel offset chunks).length)
    (h1 : i < sel.length) (h2 : i < offset.length) (h3 : i < chunks.length) :
    (chunk_selection sel offset chunks)[i] =
      (max 0 (sel[i].1 - offset[i]), min chunks[i] (sel[i].2 - offset[i])) := by
  simp [chunk_selection, List.getElem_zipWith, List.getElem_zip]

theorem getElem_get_chunk_range (sel : Sel) (chunks : List Nat) (i : Nat)
    (h : i < (get_chunk_range sel chunks).length)
    (h1 : i < sel.length) (h2 : i < chunks.length) :
    (get_chunk_range sel chunks)[i] =
      List.range' (sel[i].1 / chunks[i])
        ((sel[i].2 + chunks[i] - 1) / chunks[i] - sel[i].1 / chunks[i]) := by
  simp [get_chunk_range, List.getElem_zipWith]

/-! ## Index-wise characterizations of the boolean predicates -/

theorem all_zip_iff {α β : Type} (xs : List α) (ys : List β) (f : α × β → Bool) :
    ((xs.zip ys).all f = true) ↔
      ∀ (i : Nat) (h1 : i < xs.length) (h2 : i < ys.length), f (xs[i], ys[i]) = true := by
  rw [List.all_eq_true]
  constructor
  · intro h i h1 h2
    have hz : i < (xs.zip ys).length := by
      simp [List.length_zip]; omega
    have := h ((xs.zip ys)[i]) ((xs.zip ys).getElem_mem hz)
    rwa [List.getElem_zip] at this
  · intro h x hx
    obtain ⟨i, hi, rfl⟩ := List.mem_iff_getElem.mp hx
    have h1 : i < xs.length := by
      simp [List.length_zip] at hi; omega
    have h2 : i < ys.length := by
      simp [List.length_zip] at hi; omega
    rw [List.getElem_zip]
    exact h i h1 h2

theorem in_sel_iff (sel : Sel) (p : Ix) :
    in_sel sel p = true ↔
      p.length = sel.length ∧
        ∀ (i : Nat) (h1 : i < p.length) (h2 : i < sel.length),
          sel[i].1 ≤ p[i] ∧ p[i] < sel[i].2 := by
  unfold in_sel
  rw [Bool.and_eq_true, beq_iff_eq, all_zip_iff]
  simp

theorem in_shape_iff (sel : Sel) (p : Ix) :
    in_shape sel p = true ↔
      p.length = sel.length ∧
        ∀ (i : Nat) (h1 : i < p.length) (h2 : i < sel.length),
          p[i] < sel[i].2 - sel[i].1 := by
  unfold in_shape
  rw [Bool.and_eq_true, beq_iff_eq, all_zip_iff]
  simp

theorem is_total_slice_iff (item : Sel) (shape : List Nat) :
    is_total_slice item shape = true ↔
      item.length = shape.length ∧
        ∀ (i : Nat) (h1 : i < item.length) (h2 : i < shape.length),
          item[i].1 = 0 ∧ item[i].2 = shape[i] := by
  unfold is_total_slice
  rw [Bool.and_eq_true, beq_iff_eq, all_zip_iff]
  simp

/-! ## Membership in the chunk iteration -/

theorem mem_cartesianProduct (x : List Nat) :
    ∀ rs : List (List Nat),
      x ∈ cartesianProduct rs ↔ List.Forall₂ (fun i r => i ∈ r) x rs := by
  induction x with
  | nil =>
      intro rs
      cases rs with
      | nil => simp [cartesianProduct]
      | cons r rs =>
          simp [cartesianProduct, List.mem_flatMap, List.forall₂_nil_left_iff]
  | cons i t ih =>
      intro rs
      cases rs with
      | nil => simp [cartesianProduct]
      | cons r rest =>
          rw [List.forall₂_cons]
          simp only [cartesianProduct, List.mem_flatMap, List.mem_map]
          constructor
          · rintro ⟨j, hj, t2, ht2, heq⟩
            injection heq with he1 he2
            subst he1
            subst he2
            exact ⟨hj, (ih rest).mp ht2⟩
          · rintro ⟨hi, ht⟩
            exact ⟨i, hi, t, (ih rest).mpr ht, rfl⟩

theorem mem_cartesianProduct_get_chunk_range (sel : Sel) (chunks : List Nat)
    (hlen : sel.length = chunks.length) (x : List Nat) :
    x ∈ cartesianProduct (get_chunk_range sel chunks) ↔
      x.length = chunks.length ∧
        ∀ (i : Nat) (h1 : i < x.length) (h2 : i < sel.length) (h3 : i < chunks.length),
          sel[i].1 / chunks[i] ≤ x[i] ∧
            x[i] < sel[i].1 / chunks[i] +
              ((sel[i].2 + chunks[i] - 1) / chunks[i] - sel[i].1 / chunks[i]) := by
  rw [mem_cartesianProduct, List.forall₂_iff_get]
  constructor
  · rintro ⟨hl, hg⟩
    have hxlen : x.length = chunks.length := by
      rw [hl, length_get_chunk_range]; omega
    refine ⟨hxlen, fun i h1 h2 h3 => ?_⟩
    have hgi := hg i (by omega) (by rw [length_get_chunk_range]; omega)
    rw [List.get_eq_getElem, List.get_eq_getElem,
      getElem_get_chunk_range sel chunks i (by rw [length_get_chunk_range]; omega) h2 h3,
      List.mem_range'_1] at hgi
    exact hgi
  · rintro ⟨hxlen, hcond⟩
    have hl : x.length = (get_chunk_range sel chunks).length := by
      rw [length_get_chunk_range]; omega
    refine ⟨hl, fun i hi1 hi2 => ?_⟩
    rw [List.get_eq_getElem, List.get_eq_getElem,
      getElem_get_chunk_range sel chunks i hi2 (by omega) (by omega),
      List.mem_range'_1]
    exact hcond i hi1 (by omega) (by omega)

/-! ## Per-dimension value plumbing (over plain naturals) -/

theorem dim_local_index (s x o r : Nat) (ho1 : o ≤ s + x) (hr : r = s + x - o) :
    max 0 (s - o) + (x - max 0 (o - s)) = r := by
  omega

theorem dim_value_index (s x o r : Nat) (ho1 : o ≤ s + x) (hr : r = s + x - o) :
    max 0 (o - s) + (r - max 0 (s - o)) = x := by
  omega

theorem dim_local_in_csel (s e c x o r : Nat) (hx : x < e - s) (ho1 : o ≤ s + x)
    (ho2 : s + x < o + c) (hr : r = s + x - o) :
    max 0 (s - o) ≤ r ∧ r < min c (e - o) := by
  omega

theorem dim_value_index_total (s x o r : Nat) (hs : max 0 (s - o) = 0)
    (ho1 : o ≤ s + x) (hr : r = s + x - o) :
    max 0 (o - s) + r = x := by
  omega

/-! ## The chunk containing a selected position is visited -/

theorem chunk_of_mem (sel : Sel) (chunks : List Nat) (p : Ix)
    (hlen : sel.length = chunks.length)
    (hpos : ∀ c ∈ chunks, 0 < c)
    (hp : in_shape sel p = true) :
    chunk_of (gidx sel p) chunks ∈ cartesianProduct (get_chunk_range sel chunks) := by
  obtain ⟨hplen, hpin⟩ := (in_shape_iff sel p).mp hp
  rw [mem_cartesianProduct_get_chunk_range sel chunks hlen]
  have hglen : (gidx sel p).length = chunks.length := by
    rw [length_gidx]; omega
  have hclen : (chunk_of (gidx sel p) chunks).length = chunks.length := by
    rw [length_chunk_of]; omega
  refine ⟨hclen, fun i h1 h2 h3 => ?_⟩
  have hc : 0 < chunks[i] := hpos chunks[i] (chunks.getElem_mem h3)
  rw [getElem_chunk_of _ _ i (by omega) (by omega) h3,
    getElem_gidx sel p i (by rw [length_gidx]; omega) h2 (by omega)]
  have hx := hpin i (by omega) h2
  have hle : sel[i].1 / chunks[i] ≤ (sel[i].1 + p[i]) / chunks[i] :=
    Nat.div_le_div_right (Nat.le_add_right _ _)
  have hceil : (sel[i].2 + chunks[i] - 1) / chunks[i] =
      (sel[i].2 - 1) / chunks[i] + 1 := by
    have he : sel[i].2 + chunks[i] - 1 = (sel[i].2 - 1) + chunks[i] := by omega
    rw [he, Nat.add_div_right _ hc]
  have hlt : (sel[i].1 + p[i]) / chunks[i] < (sel[i].2 + chunks[i] - 1) / chunks[i] := by
    have hle2 : (sel[i].1 + p[i]) / chunks[i] ≤ (sel[i].2 - 1) / chunks[i] :=
      Nat.div_le_div_right (by omega)
    omega
  have hsle : sel[i].1 / chunks[i] ≤ (sel[i].2 + chunks[i] - 1) / chunks[i] :=
    Nat.div_le_div_right (by omega)
  omega

/-! ## A chunk's out-region contains `p` iff it is the chunk of `p` -/

theorem touched_iff (sel : Sel) (chunks : List Nat) (p cidx : Ix)
    (hlen : sel.length = chunks.length)
    (hpos : ∀ c ∈ chunks, 0 < c)
    (hp : in_shape sel p = true)
    (hclen : cidx.length = chunks.length) :
    in_sel (out_selection sel (chunk_offset cidx chunks) chunks) p = true ↔
      cidx = chunk_of (gidx sel p) chunks := by
  obtain ⟨hplen, hpin⟩ := (in_shape_iff sel p).mp hp
  have hoff : (chunk_offset cidx chunks).length = chunks.length := by
    rw [length_chunk_offset]; omega
  have hosel : (out_selection sel (chunk_offset cidx chunks) chunks).length =
      chunks.length := by
    rw [length_out_selection]; omega
  have hglen : (gidx sel p).length = chunks.length := by
    rw [length_gidx]; omega
  have hstar : (chunk_of (gidx sel p) chunks).length = chunks.length := by
    rw [length_chunk_of]; omega
  rw [in_sel_iff]
  constructor
  · rintro ⟨_, hcond⟩
    apply List.ext_getElem (by omega)
    intro i hi1 hi2
    have h2 : i < sel.length := by omega
    have h3 : i < chunks.length := by omega
    have hc : 0 < chunks[i] := hpos chunks[i] (chunks.getElem_mem h3)
    have hipos := hcond i (by omega) (by omega)
    rw [getElem_out_selection sel _ chunks i (by omega) h2 (by omega) h3,
      getElem_chunk_offset cidx chunks i (by omega) (by omega) h3] at hipos
    simp only at hipos
    have hx := hpin i (by omega) h2
    rw [getElem_chunk_of _ _ i (by omega) (by omega) h3,
      getElem_gidx sel p i (by rw [length_gidx]; omega) h2 (by omega)]
    exact (dim_q_eq chunks[i] (sel[i].1 + p[i]) cidx[i] hc).mp
      ((dim_touch_iff sel[i].1 sel[i].2 chunks[i] p[i] (cidx[i] * chunks[i]) hx).mp
        hipos)
  · rintro rfl
    refine ⟨by omega, fun i hi1 hi2 => ?_⟩
    have h2 : i < sel.length := by omega
    have h3 : i < chunks.length := by omega
    have hc : 0 < chunks[i] := hpos chunks[i] (chunks.getElem_mem h3)
    have hx := hpin i (by omega) h2
    rw [getElem_out_selection sel _ chunks i (by omega) h2 (by omega) h3,
      getElem_chunk_offset _ chunks i (by omega) (by omega) h3,
      getElem_chunk_of _ _ i (by omega) (by omega) h3,
      getElem_gidx sel p i (by rw [length_gidx]; omega) h2 (by omega)]
    simp only
    rw [dim_touch_iff sel[i].1 sel[i].2 chunks[i] p[i] _ hx]
    exact (dim_q_eq chunks[i] (sel[i].1 + p[i]) _ hc).mpr rfl

/-! ## Index plumbing along the read and write paths -/

theorem starts_add_sub (osel : Sel) (p : Ix) (hin : in_sel osel p = true) :
    List.zipWith (· + ·) (starts osel) (List.zipWith (· - ·) p (starts osel)) = p := by
  obtain ⟨hplen, hcond⟩ := (in_sel_iff osel p).mp hin
  apply List.ext_getElem (by simp [starts]; omega)
  intro i hi1 hi2
  have h1 : i < osel.length := by omega
  have hip := hcond i (by omega) h1
  rw [List.getElem_zipWith, List.getElem_zipWith,
    getElem_starts osel i (by rw [length_starts]; omega) h1]
  omega

theorem fast_eq_slow (cdata : CData) (item : Sel) (shape : List Nat) (q : Ix)
    (htot : is_total_slice item shape = true) (hq : q.length = shape.length) :
    chunk_read_fast cdata q = chunk_read_slow cdata item q := by
  obtain ⟨hilen, hcond⟩ := (is_total_slice_iff item shape).mp htot
  unfold chunk_read_fast chunk_read_slow
  congr 1
  apply List.ext_getElem (by simp; omega)
  intro i hi1 hi2
  have h1 : i < item.length := by omega
  have hz := hcond i h1 (by omega)
  rw [List.getElem_zipWith]
  omega

theorem slow_index_eq (sel : Sel) (chunks : List Nat) (p : Ix)
    (hlen : sel.length = chunks.length)
    (hpos : ∀ c ∈ chunks, 0 < c)
    (hp : in_shape sel p = true) :
    List.zipWith (fun (se : Nat × Nat) t => se.1 + t)
      (chunk_selection sel (chunk_offset (chunk_of (gidx sel p) chunks) chunks) chunks)
      (List.zipWith (· - ·) p
        (starts (out_selection sel
          (chunk_offset (chunk_of (gidx sel p) chunks) chunks) chunks))) =
      local_of (gidx sel p) chunks := by
  obtain ⟨hplen, hpin⟩ := (in_shape_iff sel p).mp hp
  have hglen : (gidx sel p).length = chunks.length := by rw [length_gidx]; omega
  have hstar : (chunk_of (gidx sel p) chunks).length = chunks.length := by
    rw [length_chunk_of]; omega
  have hoff : (chunk_offset (chunk_of (gidx sel p) chunks) chunks).length =
      chunks.length := by rw [length_chunk_offset]; omega
  have hcs : (chunk_selection sel (chunk_offset (chunk_of (gidx sel p) chunks) chunks)
      chunks).length = chunks.length := by rw [length_chunk_selection]; omega
  have hos : (out_selection sel (chunk_offset (chunk_of (gidx sel p) chunks) chunks)
      chunks).length = chunks.length := by rw [length_out_selection]; omega
  apply List.ext_getElem
    (by rw [List.length_zipWith, List.length_zipWith, length_starts, hcs, hos,
      length_local_of]; omega)
  intro i hi1 hi2
  have h3 : i < chunks.length := by
    rw [length_local_of, length_gidx] at hi2; omega
  have h2 : i < sel.length := by omega
  have hc : 0 < chunks[i] := hpos chunks[i] (chunks.getElem_mem h3)
  simp only [chunk_selection, out_selection, chunk_offset, chunk_of, local_of,
    gidx, starts, List.getElem_zipWith, List.getElem_zip, List.getElem_map]
  obtain ⟨ho1, ho2, hr⟩ :=
    dim_div_facts chunks[i] (sel[i].1 + p[i]) hc
  exact dim_local_index sel[i].1 p[i] _ _ ho1 hr

theorem local_in_chunk_selection (sel : Sel) (chunks : List Nat) (p : Ix)
    (hlen : sel.length = chunks.length)
    (hpos : ∀ c ∈ chunks, 0 < c)
    (hp : in_shape sel p = true) :
    in_sel (chunk_selection sel (chunk_offset (chunk_of (gidx sel p) chunks) chunks)
        chunks)
      (local_of (gidx sel p) chunks) = true := by
  obtain ⟨hplen, hpin⟩ := (in_shape_iff sel p).mp hp
  have hglen : (gidx sel p).length = chunks.length := by rw [length_gidx]; omega
  have hstar : (chunk_of (gidx sel p) chunks).length = chunks.length := by
    rw [length_chunk_of]; omega
  have hcs : (chunk_selection sel (chunk_offset (chunk_of (gidx sel p) chunks) chunks)
      chunks).length = chunks.length := by
    rw [length_chunk_selection, length_chunk_offset]; omega
  rw [in_sel_iff]
  refine ⟨by rw [length_local_of, hcs]; omega, fun i hi1 hi2 => ?_⟩
  have h3 : i < chunks.length := by
    rw [length_local_of, length_gidx] at hi1; omega
  have h2 : i < sel.length := by omega
  have hc : 0 < chunks[i] := hpos chunks[i] (chunks.getElem_mem h3)
  have hx := hpin i (by omega) h2
  simp only [chunk_selection, out_selection, chunk_offset, chunk_of, local_of,
    gidx, starts, List.getElem_zipWith, List.getElem_zip, List.getElem_map]
  obtain ⟨ho1, ho2, hr⟩ := dim_div_facts chunks[i] (sel[i].1 + p[i]) hc
  exact dim_local_in_csel sel[i].1 sel[i].2 chunks[i] p[i] _ _ hx ho1 ho2 hr

theorem value_index_eq (sel : Sel) (chunks : List Nat) (p : Ix)
    (hlen : sel.length = chunks.length)
    (hpos : ∀ c ∈ chunks, 0 < c)
    (hp : in_shape sel p = true) :
    List.zipWith (· + ·)
      (starts (out_selection sel
        (chunk_offset (chunk_of (gidx sel p) chunks) chunks) chunks))
      (List.zipWith (· - ·) (local_of (gidx sel p) chunks)
        (starts (chunk_selection sel
          (chunk_offset (chunk_of (gidx sel p) chunks) chunks) chunks))) = p := by
  obtain ⟨hplen, hpin⟩ := (in_shape_iff sel p).mp hp
  have hglen : (gidx sel p).length = chunks.length := by rw [length_gidx]; omega
  have hstar : (chunk_of (gidx sel p) chunks).length = chunks.length := by
    rw [length_chunk_of]; omega
  have hoff : (chunk_offset (chunk_of (gidx sel p) chunks) chunks).length =
      chunks.length := by rw [length_chunk_offset]; omega
  have hcs : (chunk_selection sel (chunk_offset (chunk_of (gidx sel p) chunks) chunks)
      chunks).length = chunks.length := by rw [length_chunk_selection]; omega
  have hos : (out_selection sel (chunk_offset (chunk_of (gidx sel p) chunks) chunks)
      chunks).length = chunks.length := by rw [length_out_selection]; omega
  apply List.ext_getElem
    (by rw [List.length_zipWith, List.length_zipWith, length_starts, length_starts,
      hcs, hos, length_local_of]; omega)
  intro i hi1 hi2
  have h3 : i < chunks.length := by omega
  have h2 : i < sel.length := by omega
  have hc : 0 < chunks[i] := hpos chunks[i] (chunks.getElem_mem h3)
  simp only [chunk_selection, out_selection, chunk_offset, chunk_of, local_of,
    gidx, starts, List.getElem_zipWith, List.getElem_zip, List.getElem_map]
  obtain ⟨ho1, ho2, hr⟩ := dim_div_facts chunks[i] (sel[i].1 + p[i]) hc
  exact dim_value_index sel[i].1 p[i] _ _ ho1 hr

theorem value_index_eq_total (sel : Sel) (chunks : List Nat) (p : Ix)
    (hlen : sel.length = chunks.length)
    (hpos : ∀ c ∈ chunks, 0 < c)
    (hp : in_shape sel p = true)
    (htot : is_total_slice
      (chunk_selection sel (chunk_offset (chunk_of (gidx sel p) chunks) chunks) chunks)
      chunks = true) :
    List.zipWith (· + ·)
      (starts (out_selection sel
        (chunk_offset (chunk_of (gidx sel p) chunks) chunks) chunks))
      (local_of (gidx sel p) chunks) = p := by
  obtain ⟨hplen, hpin⟩ := (in_shape_iff sel p).mp hp
  obtain ⟨htlen, htcond⟩ := (is_total_slice_iff _ _).mp htot
  have hglen : (gidx sel p).length = chunks.length := by rw [length_gidx]; omega
  have hstar : (chunk_of (gidx sel p) chunks).length = chunks.length := by
    rw [length_chunk_of]; omega
  have hoff : (chunk_offset (chunk_of (gidx sel p) chunks) chunks).length =
      chunks.length := by rw [length_chunk_offset]; omega
  have hcs : (chunk_selection sel (chunk_offset (chunk_of (gidx sel p) chunks) chunks)
      chunks).length = chunks.length := by rw [length_chunk_selection]; omega
  have hos : (out_selection sel (chunk_offset (chunk_of (gidx sel p) chunks) chunks)
      chunks).length = chunks.length := by rw [length_out_selection]; omega
  apply List.ext_getElem
    (by rw [List.length_zipWith, length_starts, hos, length_local_of]; omega)
  intro i hi1 hi2
  have h3 : i < chunks.length := by omega
  have h2 : i < sel.length := by omega
  have hc : 0 < chunks[i] := hpos chunks[i] (chunks.getElem_mem h3)
  have hz := htcond i (by omega) h3
  rw [getElem_chunk_selection sel _ chunks i (by rw [hcs]; omega) h2
    (by rw [hoff]; omega) h3,
    getElem_chunk_offset _ chunks i (by rw [hoff]; omega) (by rw [hstar]; omega) h3,
    getElem_chunk_of _ chunks i (by rw [hstar]; omega) (by omega) h3,
    getElem_gidx sel p i (by rw [length_gidx]; omega) h2 (by omega)] at hz
  simp only at hz
  simp only [out_selection, chunk_offset, chunk_of, local_of,
    gidx, starts, List.getElem_zipWith, List.getElem_zip, List.getElem_map]
  obtain ⟨ho1, ho2, hr⟩ := dim_div_facts chunks[i] (sel[i].1 + p[i]) hc
  exact dim_value_index_total sel[i].1 p[i] _ _ hz.1 ho1 hr

/-! ## Pointwise semantics of the read path -/

theorem stored_at_idem (a : ZMeta) (st : ChunkStore) (g : Ix) (x : Int) :
    stored_at a st g (stored_at a st g x) = stored_at a st g x := by
  unfold stored_at
  cases st (chunk_of g a.chunks) with
  | none => cases a.fill_value <;> rfl
  | some cdata => rfl

theorem getitem_pointwise (a : ZMeta) (st : ChunkStore) (sel : Sel) (out0 : Buf)
    (p : Ix)
    (hlen : sel.length = a.chunks.length)
    (hpos : ∀ c ∈ a.chunks, 0 < c)
    (hp : in_shape sel p = true) :
    getitem a st sel out0 p = stored_at a st (gidx sel p) (out0 p) := by
  obtain ⟨hplen, hpin⟩ := (in_shape_iff sel p).mp hp
  have hstarlen : (chunk_of (gidx sel p) a.chunks).length = a.chunks.length := by
    rw [length_chunk_of, length_gidx]; omega
  unfold getitem
  apply foldl_point_hit (apply_read a st sel) p (chunk_of (gidx sel p) a.chunks)
    (fun x => stored_at a st (gidx sel p) x)
    (fun x => stored_at_idem a st (gidx sel p) x)
    (cartesianProduct (get_chunk_range sel a.chunks))
  · -- chunks other than the one containing p leave position p untouched
    intro c hcmem hcne f
    have hclen : c.length = a.chunks.length :=
      ((mem_cartesianProduct_get_chunk_range sel a.chunks hlen c).mp hcmem).1
    have hnot : ¬ in_sel (out_selection sel (chunk_offset c a.chunks) a.chunks) p
        = true :=
      fun h => hcne ((touched_iff sel a.chunks p c hlen hpos hp hclen).mp h)
    simp only [apply_read, write_region]
    rw [if_neg hnot]
  · -- the chunk containing p deposits the stored value there
    intro f
    have htouch : in_sel (out_selection sel
        (chunk_offset (chunk_of (gidx sel p) a.chunks) a.chunks) a.chunks) p = true :=
      (touched_iff sel a.chunks p _ hlen hpos hp hstarlen).mpr rfl
    have hqlen : (List.zipWith (· - ·) p (starts (out_selection sel
        (chunk_offset (chunk_of (gidx sel p) a.chunks) a.chunks) a.chunks))).length =
        a.chunks.length := by
      rw [List.length_zipWith, length_starts, length_out_selection,
        length_chunk_offset]; omega
    simp only [apply_read, write_region]
    rw [if_pos htouch]
    unfold chunk_getitem stored_at
    cases st (chunk_of (gidx sel p) a.chunks) with
    | none =>
        cases a.fill_value with
        | none =>
            show view f _ _ = f p
            unfold view
            rw [starts_add_sub _ p htouch]
        | some v => rfl
    | some cdata =>
        dsimp only
        by_cases htot : is_total_slice (chunk_selection sel
            (chunk_offset (chunk_of (gidx sel p) a.chunks) a.chunks) a.chunks)
            a.chunks = true
        · rw [if_pos htot, fast_eq_slow cdata _ a.chunks _ htot hqlen]
          unfold chunk_read_slow
          rw [slow_index_eq sel a.chunks p hlen hpos hp]
        · rw [if_neg htot]
          unfold chunk_read_slow
          rw [slow_index_eq sel a.chunks p hlen hpos hp]
  · exact chunk_of_mem sel a.chunks p hlen hpos hp

/-! ## Pointwise semantics of the write path -/

/-- The chunk buffer built by `_chunk_setitem` (the `chunk` local variable of
the source), as a function of the previously stored blob `prev` at the
chunk's key. -/
def chunk_built (a : ZMeta) (uninit : Buf) (key : Sel) (value : CVal)
    (prev : Option CData) : Buf :=
  if is_total_slice key a.chunks then
    match value with
    | .scalar v => fun _ => v
    | .arr f => f
  else
    let base : Buf :=
      match prev with
      | none =>
          match a.fill_value with
          | some v => fun _ => v
          | none => uninit
      | some cdata => blosc.decompress cdata
    fun q =>
      if in_sel key q then
        match value with
        | .scalar v => v
        | .arr f => f (List.zipWith (· - ·) q (starts key))
      else base q

theorem chunk_setitem_point (a : ZMeta) (st : ChunkStore) (uninit : Buf)
    (cidx : Ix) (key : Sel) (value : CVal) :
    chunk_setitem a st uninit cidx key value cidx =
      some (blosc.compress (chunk_built a uninit key value (st cidx))
        a.cname a.clevel a.shuffle) := by
  simp [chunk_setitem, chunk_built]

theorem chunk_setitem_other (a : ZMeta) (st : ChunkStore) (uninit : Buf)
    (cidx : Ix) (key : Sel) (value : CVal) (k : Ix) (h : k ≠ cidx) :
    chunk_setitem a st uninit cidx key value k = st k := by
  simp [chunk_setitem, h]

theorem chunk_built_idem (a : ZMeta) (uninit : Buf) (key : Sel) (value : CVal)
    (prev : Option CData) (cn : String) (cl sh : Nat) :
    chunk_built a uninit key value
      (some (blosc.compress (chunk_built a uninit key value prev) cn cl sh)) =
    chunk_built a uninit key value prev := by
  by_cases htot : is_total_slice key a.chunks = true
  · simp [chunk_built, htot]
  · funext q
    by_cases hq : in_sel key q = true
    · simp [chunk_built, htot, hq]
    · simp [chunk_built, htot, hq, blosc.decompress, blosc.compress]

/-- The value written by `__setitem__` at selection-local position `p`: the
scalar itself, or the corresponding element of the value array. -/
def SetVal.valAt : SetVal → Buf
  | .scalar v => fun _ => v
  | .array f => f

/-- The `CVal` passed to `_chunk_setitem` for the chunk at `cidx` by the
`__setitem__` loop. -/
def set_cval (sel : Sel) (chunks : List Nat) (value : SetVal) (cidx : Ix) : CVal :=
  match value with
  | .scalar v => .scalar v
  | .array f => .arr fun q =>
      f (List.zipWith (· + ·)
        (starts (out_selection sel (chunk_offset cidx chunks) chunks)) q)

theorem setitem_eq_fold (a : ZMeta) (st : ChunkStore) (sel : Sel) (value : SetVal)
    (uninit : Buf) :
    setitem a st sel value uninit =
      (cartesianProduct (get_chunk_range sel a.chunks)).foldl
        (fun st2 cidx => chunk_setitem a st2 uninit cidx
          (chunk_selection sel (chunk_offset cidx a.chunks) a.chunks)
          (set_cval sel a.chunks value cidx)) st := by
  cases value <;> rfl

theorem setitem_at_chunk (a : ZMeta) (st : ChunkStore) (sel : Sel) (value : SetVal)
    (uninit : Buf) (p : Ix)
    (hlen : sel.length = a.chunks.length)
    (hpos : ∀ c ∈ a.chunks, 0 < c)
    (hp : in_shape sel p = true) :
    setitem a st sel value uninit (chunk_of (gidx sel p) a.chunks) =
      some (blosc.compress
        (chunk_built a uninit
          (chunk_selection sel
            (chunk_offset (chunk_of (gidx sel p) a.chunks) a.chunks) a.chunks)
          (set_cval sel a.chunks value (chunk_of (gidx sel p) a.chunks))
          (st (chunk_of (gidx sel p) a.chunks)))
        a.cname a.clevel a.shuffle) := by
  rw [setitem_eq_fold]
  exact foldl_point_hit
    (fun st2 cidx => chunk_setitem a st2 uninit cidx
      (chunk_selection sel (chunk_offset cidx a.chunks) a.chunks)
      (set_cval sel a.chunks value cidx))
    (chunk_of (gidx sel p) a.chunks)
    (chunk_of (gidx sel p) a.chunks)
    (fun x => some (blosc.compress
      (chunk_built a uninit
        (chunk_selection sel
          (chunk_offset (chunk_of (gidx sel p) a.chunks) a.chunks) a.chunks)
        (set_cval sel a.chunks value (chunk_of (gidx sel p) a.chunks)) x)
      a.cname a.clevel a.shuffle))
    (fun x => congrArg (fun ch => some (blosc.compress ch a.cname a.clevel a.shuffle))
      (chunk_built_idem a uninit _ _ x a.cname a.clevel a.shuffle))
    (cartesianProduct (get_chunk_range sel a.chunks))
    (fun c _ hcne st2 => chunk_setitem_other a st2 uninit c _ _ _ hcne.symm)
    (fun st2 => chunk_setitem_point a st2 uninit _ _ _)
    (chunk_of_mem sel a.chunks p hlen hpos hp)
    st

theorem setitem_stored_at (a : ZMeta) (st : ChunkStore) (sel : Sel) (value : SetVal)
    (uninit : Buf) (p : Ix) (dflt : Int)
    (hlen : sel.length = a.chunks.length)
    (hpos : ∀ c ∈ a.chunks, 0 < c)
    (hp : in_shape sel p = true) :
    stored_at a (setitem a st sel value uninit) (gidx sel p) dflt =
      value.valAt p := by
  unfold stored_at
  rw [setitem_at_chunk a st sel value uninit p hlen hpos hp]
  show chunk_built a uninit
      (chunk_selection sel
        (chunk_offset (chunk_of (gidx sel p) a.chunks) a.chunks) a.chunks)
      (set_cval sel a.chunks value (chunk_of (gidx sel p) a.chunks))
      (st (chunk_of (gidx sel p) a.chunks))
      (local_of (gidx sel p) a.chunks) = value.valAt p
  by_cases htot : is_total_slice
      (chunk_selection sel
        (chunk_offset (chunk_of (gidx sel p) a.chunks) a.chunks) a.chunks)
      a.chunks = true
  · cases value with
    | scalar v => simp [chunk_built, htot, set_cval, SetVal.valAt]
    | array f =>
        simp only [chunk_built, htot, if_true, set_cval, SetVal.valAt]
        rw [value_index_eq_total sel a.chunks p hlen hpos hp htot]
  · have hin := local_in_chunk_selection sel a.chunks p hlen hpos hp
    cases value with
    | scalar v => simp [chunk_built, htot, hin, set_cval, SetVal.valAt]
    | array f =>
        simp only [chunk_built, htot, if_false, set_cval, SetVal.valAt, hin,
          Bool.false_eq_true, if_true]
        rw [value_index_eq sel a.chunks p hlen hpos hp]

/-! ## Shape bookkeeping for `append` -/

theorem length_new_shape_of (old_shape dshape : List Nat) (axis : Nat) :
    (new_shape_of old_shape dshape axis).length = old_shape.length := by
  simp [new_shape_of]

theorem length_append_sel (old_shape new_shape : List Nat) (axis : Nat) :
    (append_sel old_shape new_shape axis).length = old_shape.length := by
  simp [append_sel]

theorem getElem_new_shape_of (old_shape dshape : List Nat) (axis i : Nat)
    (h : i < (new_shape_of old_shape dshape axis).length)
    (h1 : i < old_shape.length) (h2 : i < dshape.length) :
    (new_shape_of old_shape dshape axis)[i] =
      if i = axis then old_shape[i] + dshape[i] else old_shape[i] := by
  simp only [new_shape_of, List.getElem_map, List.getElem_range]
  rw [List.getD_eq_getElem old_shape 0 h1, List.getD_eq_getElem dshape 0 h2]

/-! ## The concrete spec scenario: shape `(10,)`, chunks `(5,)`, fill 0 -/

/-- The scenario array: shape `(10,)`, chunk shape `(5,)`, `fill_value=0`. -/
def demoMeta : ZMeta :=
  { shape := [10], chunks := [5], fill_value := some 0,
    cname := "blosclz", clevel := 5, shuffle := 1 }

/-- The scenario's initial store: no chunk ever written. -/
def demoStore0 : ChunkStore := fun _ => none

/-- The scenario value `[0,1,2,3,4]` as a buffer. -/
def demoVal : Buf := fun p => ([0, 1, 2, 3, 4] : List Int).getD (p.headD 0) 0

/-- The store after writing `[0,1,2,3,4]` to `[5:10]`. -/
def demoStore1 (uninit : Buf) : ChunkStore :=
  setitem demoMeta demoStore0 [(5, 10)] (.array demoVal) uninit

/-- The store after then writing scalar `99` to `[3:7]`. -/
def demoStore2 (uninit : Buf) : ChunkStore :=
  setitem demoMeta (demoStore1 uninit) [(3, 7)] (.scalar 99) uninit

/-- Reading `[0:10]` of the scenario array over store `st` into a fresh
output buffer with arbitrary initial contents `out0`. -/
def demoRead (st : ChunkStore) (out0 : Buf) : List Int :=
  (List.range 10).map fun i => getitem demoMeta st [(0, 10)] out0 [i]

/-! ## Claims about `AccessMode` and the `Store` lifecycle -/

/-- **C3.** `AccessMode.from_literal` maps exactly: `'r'` to
`readonly=True` and `overwrite=create=update=False`; `'r+'` to `update=True`
only; `'w'` to `overwrite=True` and `create=True`; `'w-'` to `create=True`
only; `'a'` to `create=True` and `update=True`; `readonly` is `True` only for
`'r'`; and every other token raises `ValueError`. -/
theorem AccessMode_from_literal_table :
    AccessMode.from_literal "r" = .ok ⟨"r", true, false, false, false⟩ ∧
    AccessMode.from_literal "r+" = .ok ⟨"r+", false, false, false, true⟩ ∧
    AccessMode.from_literal "w" = .ok ⟨"w", false, true, true, false⟩ ∧
    AccessMode.from_literal "w-" = .ok ⟨"w-", false, false, true, false⟩ ∧
    AccessMode.from_literal "a" = .ok ⟨"a", false, false, true, true⟩ ∧
    (∀ m : String, m ≠ "r" → m ≠ "r+" → m ≠ "w" → m ≠ "w-" → m ≠ "a" →
      AccessMode.from_literal m = .error .valueError) := by
  refine ⟨rfl, rfl, rfl, rfl, rfl, ?_⟩
  intro m h1 h2 h3 h4 h5
  have hnot : ¬ (m = "r" ∨ m = "r+" ∨ m = "a" ∨ m = "w" ∨ m = "w-") := by
    rintro (h | h | h | h | h) <;> simp_all
  simp [AccessMode.from_literal, hnot]

/-- Witness for **C3**: a token outside the five literals raises
`ValueError`. -/
theorem AccessMode_from_literal_table_witness :
    AccessMode.from_literal "x" = .error .valueError :=
  AccessMode_from_literal_table.2.2.2.2.2 "x" (by decide) (by decide)
    (by decide) (by decide) (by decide)

/-- **C4.** `Store._open` raises a state error (`ValueError`) if the store is
already open; otherwise, in mode `'w'` it clears all existing keys before
marking the store open; in mode `'w-'` on a non-empty store it raises
`FileExistsError` (in the functional embedding an error result leaves the
store value untouched, so contents and open flag are unmodified); in all
other cases it marks the store open (contents untouched). -/
theorem Store_open_semantics (s : KVStore) :
    (s.is_open = true → s._open = .error .valueError) ∧
    (s.is_open = false → s.mode.str = "w" →
      s._open = .ok { s with contents := [], is_open := true }) ∧
    (s.is_open = false → s.mode.str = "w-" → s.contents ≠ [] →
      s._open = .error .fileExistsError) ∧
    (s.is_open = false → s.mode.str ≠ "w" → (s.mode.str = "w-" → s.contents = []) →
      s._open = .ok { s with is_open := true }) := by
  refine ⟨?_, ?_, ?_, ?_⟩
  · intro h
    simp [KVStore._open, h]
  · intro h hw
    simp [KVStore._open, KVStore.clear, h, hw]
  · intro h hw hne
    simp [KVStore._open, KVStore.empty, h, hw, hne]
  · intro h hw hwm
    by_cases hwm2 : s.mode.str = "w-"
    · simp [KVStore._open, KVStore.empty, h, hw, hwm2, hwm hwm2]
    · simp [KVStore._open, KVStore.empty, h, hw, hwm2]

/-- Witness for **C4**: opening a closed, empty, read-mode store succeeds and
marks it open. -/
theorem Store_open_semantics_witness :
    KVStore._open ⟨⟨"r", true, false, false, false⟩, false, []⟩ =
      .ok ⟨⟨"r", true, false, false, false⟩, true, []⟩ :=
  (Store_open_semantics ⟨⟨"r", true, false, false, false⟩, false, []⟩).2.2.2
    rfl (by decide) (fun _ => rfl)

/-- Counterexample for **C5**: a closed store with mode `'r+'` whose backend
holds no content opens successfully — `_open` does not raise, contradicting
the claim that it fails when the store does not already exist. -/
theorem Store_open_rplus_empty_succeeds :
    KVStore._open ⟨⟨"r+", false, false, false, true⟩, false, []⟩ =
      .ok ⟨⟨"r+", false, false, false, true⟩, true, []⟩ := by
  rfl

/-- **C5 (amended).** `Store._open` performs no existence check for mode
`'r+'`: for every closed store with mode `'r+'` — empty backend or not —
`_open` succeeds, marking the store open with contents unchanged.  (The
"must already exist" semantics of `'r+'` is not enforced by `Store._open`.) -/
theorem Store_open_rplus_marks_open (s : KVStore) (h1 : s.mode.str = "r+")
    (h2 : s.is_open = false) :
    s._open = .ok { s with is_open := true } := by
  simp [KVStore._open, h1, h2]

/-- Witness for **C5 (amended)**. -/
theorem Store_open_rplus_marks_open_witness :
    KVStore._open ⟨⟨"r+", false, false, false, true⟩, false, [("k", [1])]⟩ =
      .ok ⟨⟨"r+", false, false, false, true⟩, true, [("k", [1])]⟩ :=
  Store_open_rplus_marks_open ⟨⟨"r+", false, false, false, true⟩, false, [("k", [1])]⟩
    rfl rfl

/-- Counterexample for **C10**: for a closed store with mode `'w-'` and
non-empty contents the sequence `_open(); close(); _open()` does not succeed
— the first `_open` already raises `FileExistsError` — so the sequence does
not succeed for *every* store. -/
theorem Store_open_close_open_can_fail :
    KVStore.open_close_open ⟨⟨"w-", false, false, true, false⟩, false, [("k", [1])]⟩ =
      .error .fileExistsError := by
  rfl

/-- **C10 (amended).** `Store._open` raises the already-open state error
(`ValueError`) if and only if the store is currently open at the time of the
call; and since `close()` merely resets the open flag, every store whose
`_open` succeeds can be closed and re-opened — the second `_open` succeeds
(and for mode `'w'` each successful open clears the store again). -/
theorem Store_reopen_after_close (s : KVStore) :
    (s._open = .error .valueError ↔ s.is_open = true) ∧
    (∀ s1 : KVStore, s._open = .ok s1 →
      ∃ s2 : KVStore, s1.close._open = .ok s2 ∧
        (s.mode.str = "w" → s2.contents = [])) := by
  constructor
  · constructor
    · intro h
      by_contra hopen
      have hfalse : s.is_open = false := by
        cases hs : s.is_open
        · rfl
        · exact absurd hs hopen
      rw [KVStore._open, if_neg (by simp [hfalse])] at h
      by_cases hw : s.mode.str = "w"
      · rw [if_pos hw] at h
        exact Except.noConfusion h
      · rw [if_neg hw] at h
        by_cases hwm : s.mode.str = "w-" ∧ ¬ s.empty
        · rw [if_pos hwm] at h
          have := Except.error.inj h
          exact PyErr.noConfusion this
        · rw [if_neg hwm] at h
          exact Except.noConfusion h
    · intro h
      simp [KVStore._open, h]
  · intro s1 h1
    have hfalse : s.is_open = false := by
      cases hs : s.is_open
      · rfl
      · rw [KVStore._open, if_pos (by simp [hs])] at h1
        exact Except.noConfusion h1
    rw [KVStore._open, if_neg (by simp [hfalse])] at h1
    by_cases hw : s.mode.str = "w"
    · rw [if_pos hw] at h1
      have hs1 : s1 = { s.clear with is_open := true } := (Except.ok.inj h1).symm
      have hclose : s1.close = { s.clear with is_open := false } := by
        simp [KVStore.close, hs1]
      refine ⟨{ s.clear with is_open := true }, ?_, fun _ => by simp [KVStore.clear]⟩
      rw [hclose, KVStore._open, if_neg (by simp),
        if_pos (by simpa [KVStore.clear] using hw)]
      rfl
    · rw [if_neg hw] at h1
      by_cases hwm : s.mode.str = "w-" ∧ ¬ s.empty
      · rw [if_pos hwm] at h1
        exact Except.noConfusion h1
      · rw [if_neg hwm] at h1
        have hs1 : s1 = { s with is_open := true } := (Except.ok.inj h1).symm
        have hclose : s1.close = { s with is_open := false } := by
          simp [KVStore.close, hs1]
        refine ⟨{ s with is_open := true }, ?_, fun hwstr => absurd hwstr hw⟩
        rw [hclose, KVStore._open, if_neg (by simp),
          if_neg (by simpa using hw),
          if_neg (by simpa [KVStore.empty] using hwm)]


/-- **C2.** For the array with shape `(10,)`, chunk shape `(5,)` and
`fill_value=0`: reading `[0:10]` before any write returns
`[0,0,0,0,0,0,0,0,0,0]`; after writing `[0,1,2,3,4]` to `[5:10]`, reading
`[0:10]` returns `[0,0,0,0,0,0,1,2,3,4]`; after then writing scalar `99` to
`[3:7]` (crossing the chunk boundary at index 5), reading `[0:10]` returns
`[0,0,0,99,99,99,99,2,3,4]` — for every initial contents of the `np.empty`
buffers involved. -/
theorem scenario_shape10_chunk5 (out0 uninit : Buf) :
    demoRead demoStore0 out0 = [0, 0, 0, 0, 0, 0, 0, 0, 0, 0] ∧
    demoRead (demoStore1 uninit) out0 = [0, 0, 0, 0, 0, 0, 1, 2, 3, 4] ∧
    demoRead (demoStore2 uninit) out0 = [0, 0, 0, 99, 99, 99, 99, 2, 3, 4] :=
  ⟨rfl, rfl, rfl⟩

/-- Witness for **C10 (amended)**: a concrete mode-`'w'` store opens, closes
and re-opens, ending empty. -/
theorem Store_reopen_after_close_witness :
    ∃ s2 : KVStore,
      (KVStore.close ⟨⟨"w", false, true, true, false⟩, true, []⟩)._open = .ok s2 ∧
        ((⟨"w", false, true, true, false⟩ : AccessMode).str = "w" → s2.contents = []) :=
  (Store_reopen_after_close ⟨⟨"w", false, true, true, false⟩, false, [("k", [1])]⟩).2
    ⟨⟨"w", false, true, true, false⟩, true, []⟩ rfl

/-! ## Claims about the chunk engine -/

/-- **C1.** For every array, every selection within the array shape, and
every value of matching shape, performing `__setitem__` of the value at that
selection and then `__getitem__` of the same selection returns data
bit-identical to the value written — at every position of the selection,
for arbitrary chunk layout (so in particular when the selection spans
multiple chunks and overlaps chunks only partially), and for arbitrary
initial contents of the `np.empty` buffers involved. -/
theorem setitem_getitem_roundtrip (a : ZMeta) (st : ChunkStore) (sel : Sel)
    (f : Buf) (out0 uninit : Buf) (p : Ix)
    (hndim : sel.length = a.chunks.length)
    (hshape : sel.length = a.shape.length)
    (hsel : ∀ (i : Nat) (h1 : i < sel.length) (h2 : i < a.shape.length),
      sel[i].1 ≤ sel[i].2 ∧ sel[i].2 ≤ a.shape[i])
    (hpos : ∀ c ∈ a.chunks, 0 < c)
    (hp : in_shape sel p = true) :
    getitem a (setitem a st sel (.array f) uninit) sel out0 p = f p := by
  rw [getitem_pointwise a _ sel out0 p hndim hpos hp]
  exact setitem_stored_at a st sel (.array f) uninit p (out0 p) hndim hpos hp

/-- Witness for **C1**: a selection `[3:7)` crossing the chunk boundary of a
shape-`(10,)`, chunk-`(5,)` array, read back at position 2. -/
theorem setitem_getitem_roundtrip_witness :
    getitem demoMeta
      (setitem demoMeta demoStore0 [(3, 7)] (.array demoVal) (fun _ => -5))
      [(3, 7)] (fun _ => -9) [2] = demoVal [2] :=
  setitem_getitem_roundtrip demoMeta demoStore0 [(3, 7)] demoVal
    (fun _ => -9) (fun _ => -5) [2] (by decide) (by decide) (by decide)
    (by decide) (by decide)

/-- **C6.** For every array and every selection, reading a position whose
chunk has never been written (its key is missing from the store) returns
`fill_value` when it is present, and leaves the corresponding position of
the output buffer untouched (equal to the arbitrary `np.empty` contents
`out0`) when `fill_value` is absent.  The missing chunk key is never an
error: `getitem` is a total function and the miss is handled by the
`KeyError` branch of `_chunk_getitem`. -/
theorem never_written_chunk_reads_fill (a : ZMeta) (st : ChunkStore) (sel : Sel)
    (out0 : Buf) (p : Ix)
    (hlen : sel.length = a.chunks.length)
    (hpos : ∀ c ∈ a.chunks, 0 < c)
    (hp : in_shape sel p = true)
    (hmiss : st (chunk_of (gidx sel p) a.chunks) = none) :
    getitem a st sel out0 p =
      match a.fill_value with
      | some v => v
      | none => out0 p := by
  rw [getitem_pointwise a st sel out0 p hlen hpos hp]
  unfold stored_at
  rw [hmiss]

/-- Witness for **C6**: reading the untouched demo array yields the fill
value 0. -/
theorem never_written_chunk_reads_fill_witness :
    getitem demoMeta demoStore0 [(0, 10)] (fun _ => -3) [7] = 0 :=
  never_written_chunk_reads_fill demoMeta demoStore0 [(0, 10)] (fun _ => -3) [7]
    (by decide) (by decide) (by decide) rfl

/-- **C7.** On a chunk read hit where the fast path applies (the chunk
selection spans the entire chunk; C-contiguity of the destination is a
memory-layout condition with no value-level content), `_chunk_getitem`
takes the fast branch, and the fast branch (decompress directly into the
destination) and the slow branch (decompress into a temporary chunk and
copy the chunk selection) yield identical destination contents. -/
theorem fast_path_equals_slow_path (a : ZMeta) (st : ChunkStore) (cidx : Ix)
    (item : Sel) (dest : Buf) (cdata : CData) (q : Ix)
    (hst : st cidx = some cdata)
    (htot : is_total_slice item a.chunks = true)
    (hq : q.length = a.chunks.length) :
    chunk_getitem a st cidx item dest q = chunk_read_fast cdata q ∧
      chunk_getitem a st cidx item dest q = chunk_read_slow cdata item q := by
  have h1 : chunk_getitem a st cidx item dest q = chunk_read_fast cdata q := by
    unfold chunk_getitem
    rw [hst]
    dsimp only
    rw [if_pos htot]
  exact ⟨h1, h1.trans (fast_eq_slow cdata item a.chunks q htot hq)⟩

/-- Witness for **C7**: a whole-chunk selection of a `(5,)`-chunk array. -/
theorem fast_path_equals_slow_path_witness :
    chunk_getitem demoMeta (fun _ => some ⟨fun _ => 42⟩) [0] [(0, 5)]
        (fun _ => -1) [3] = chunk_read_fast ⟨fun _ => 42⟩ [3] ∧
      chunk_getitem demoMeta (fun _ => some ⟨fun _ => 42⟩) [0] [(0, 5)]
        (fun _ => -1) [3] = chunk_read_slow ⟨fun _ => 42⟩ [(0, 5)] [3] :=
  fast_path_equals_slow_path demoMeta (fun _ => some ⟨fun _ => 42⟩) [0] [(0, 5)]
    (fun _ => -1) ⟨fun _ => 42⟩ [3] rfl (by decide) (by decide)

/-- **C8.** Writing a sub-region of a partially written chunk (a
`chunk_selection` that does not cover the whole chunk) leaves every element
of the chunk outside that sub-region unchanged: after the
read-modify-recompress-store cycle of `_chunk_setitem`, decompressing the
newly stored blob at a position outside the written sub-region yields the
same value as decompressing the previously stored blob there. -/
theorem partial_write_preserves_outside (a : ZMeta) (st : ChunkStore)
    (uninit : Buf) (cidx : Ix) (key : Sel) (value : CVal) (cdata : CData) (q : Ix)
    (hst : st cidx = some cdata)
    (hpart : is_total_slice key a.chunks = false)
    (hq : in_sel key q = false) :
    ∃ cd2 : CData, chunk_setitem a st uninit cidx key value cidx = some cd2 ∧
      blosc.decompress cd2 q = blosc.decompress cdata q := by
  refine ⟨blosc.compress (chunk_built a uninit key value (st cidx))
    a.cname a.clevel a.shuffle, chunk_setitem_point a st uninit cidx key value, ?_⟩
  show chunk_built a uninit key value (st cidx) q = blosc.decompress cdata q
  rw [hst]
  simp [chunk_built, hpart, hq]

/-- Witness for **C8**: writing scalar 9 to `[1:3)` of an existing
`(5,)`-chunk leaves position 0 at its old value 7. -/
theorem partial_write_preserves_outside_witness :
    ∃ cd2 : CData,
      chunk_setitem demoMeta (fun k => if k = [0] then some ⟨fun _ => 7⟩ else none)
          (fun _ => -4) [0] [(1, 3)] (.scalar 9) [0] = some cd2 ∧
        blosc.decompress cd2 [0] = blosc.decompress ⟨fun _ => 7⟩ [0] :=
  partial_write_preserves_outside demoMeta
    (fun k => if k = [0] then some ⟨fun _ => 7⟩ else none) (fun _ => -4) [0]
    [(1, 3)] (.scalar 9) ⟨fun _ => 7⟩ [0] rfl (by decide) (by decide)

/-- **C9.** `Array.append`: when `data`'s extent on any non-append axis
differs from the array's, `append` raises `ValueError` before any mutation
(in the functional embedding the error result carries no new state, so
shape and stored chunks are exactly as before).  When the shapes match,
`append` succeeds, the new shape adds `data`'s extent along `axis` and is
unchanged elsewhere, and `data` has been written into the newly added
region: reading that region through the ordinary read path returns `data`. -/
theorem append_spec (a : ZMeta) (st : ChunkStore) (dshape : List Nat) (f : Buf)
    (axis : Nat) (uninit : Buf)
    (hnd : a.shape.length = a.chunks.length)
    (hpos : ∀ c ∈ a.chunks, 0 < c)
    (hd : dshape.length = a.shape.length)
    (hax : axis < a.shape.length) :
    (a.shape.eraseIdx axis ≠ dshape.eraseIdx axis →
      append a st dshape f axis uninit = .error .valueError) ∧
    (a.shape.eraseIdx axis = dshape.eraseIdx axis →
      ∃ a2 st2, append a st dshape f axis uninit = .ok (a2, st2) ∧
        a2.shape.length = a.shape.length ∧
        (∀ (i : Nat) (h1 : i < a.shape.length) (h2 : i < dshape.length)
            (h3 : i < a2.shape.length),
          a2.shape[i] = if i = axis then a.shape[i] + dshape[i] else a.shape[i]) ∧
        (∀ (p : Ix) (out0 : Buf),
          in_shape (append_sel a.shape (new_shape_of a.shape dshape axis) axis) p
              = true →
            getitem a2 st2
              (append_sel a.shape (new_shape_of a.shape dshape axis) axis)
              out0 p = f p)) := by
  constructor
  · intro hne
    simp [append, hne]
  · intro heq
    refine ⟨resize a (new_shape_of a.shape dshape axis),
      setitem (resize a (new_shape_of a.shape dshape axis)) st
        (append_sel a.shape (new_shape_of a.shape dshape axis) axis)
        (.array f) uninit, ?_, ?_, ?_, ?_⟩
    · simp [append, heq]
    · simp [resize, length_new_shape_of]
    · intro i h1 h2 h3
      show (new_shape_of a.shape dshape axis)[i] = _
      exact getElem_new_shape_of a.shape dshape axis i
        (by rw [length_new_shape_of]; omega) h1 h2
    · intro p out0 hpin
      have hsel_len : (append_sel a.shape (new_shape_of a.shape dshape axis)
          axis).length = (resize a (new_shape_of a.shape dshape axis)).chunks.length := by
        rw [length_append_sel]
        show a.shape.length = a.chunks.length
        exact hnd
      rw [getitem_pointwise _ _ _ out0 p hsel_len hpos hpin]
      exact setitem_stored_at _ st _ (.array f) uninit p (out0 p) hsel_len hpos hpin

/-- Witness for **C9**: appending 3 elements to the demo shape-`(10,)` array
succeeds, the shape becomes `(13,)`, and the appended region reads back. -/
theorem append_spec_witness :
    ∃ a2 st2,
      append demoMeta demoStore0 [3] demoVal 0 (fun _ => -6) = .ok (a2, st2) ∧
        a2.shape.length = demoMeta.shape.length ∧
        (∀ (i : Nat) (h1 : i < demoMeta.shape.length) (h2 : i < ([3] : List Nat).length)
            (h3 : i < a2.shape.length),
          a2.shape[i] = if i = 0 then demoMeta.shape[i] + [3][i] else demoMeta.shape[i]) ∧
        (∀ (p : Ix) (out0 : Buf),
          in_shape (append_sel demoMeta.shape (new_shape_of demoMeta.shape [3] 0) 0) p
              = true →
            getitem a2 st2
              (append_sel demoMeta.shape (new_shape_of demoMeta.shape [3] 0) 0)
              out0 p = demoVal p) :=
  (append_spec demoMeta demoStore0 [3] demoVal 0 (fun _ => -6)
    (by decide) (by decide) (by decide) (by decide)).2 (by decide)

end Zarr
